import Mathlib

/-!
Verification of the work-stealing thread pools in `src/thread_pool/`
(`ThreadPoolFast` in `thread_pool_fast.{h,cpp}` and
`parallel::ThreadPoolPriority` in `thread_pool_priority.{h,cpp}`).

Tasks are identified by natural numbers.  A `std::deque` of tasks is
modelled as a `List TaskId` whose head is the front of the deque and whose
last element is the back.  A priority worker queue (the fixed array
`queues[3]` of deques, indexed 0 = High, 1 = Normal, 2 = Low) is modelled
as a `List (List TaskId)` of length 3.  The `size_t` dispatch counter is a
natural reduced modulo `2 ^ 64` where the C++ `fetch_add` would wrap.
-/

namespace ThreadPool

abbrev TaskId := Nat

/-! ## Flat pool queue operations (`ThreadPoolFast`) -/

/-- Local-phase pop of the owning worker, `thread_pool_fast.cpp` lines
49-56: under the queue lock, if `tasks` is non-empty take `tasks.front()`
and `pop_front()`. -/
def popFrontLocal (q : List TaskId) : Option (TaskId × List TaskId) :=
  match q with
  | [] => none
  | t :: rest => some (t, rest)

/-- Steal-phase pop of a thief in the flat pool, `thread_pool_fast.cpp`
lines 78-88: after a successful `try_lock`, if the victim deque is
non-empty the code takes `tasks.front()` and `pop_front()` (the comment at
lines 80-82 notes that canonical work stealing would use the back, but the
code uses the front). -/
def stealPopFast (q : List TaskId) : Option (TaskId × List TaskId) :=
  match q with
  | [] => none
  | t :: rest => some (t, rest)

/-- Submission append into the selected flat queue,
`thread_pool_fast.h` line 108: `queues_[index]->tasks.emplace_back(...)`. -/
def fastSubmitQueue (q : List TaskId) (t : TaskId) : List TaskId :=
  q ++ [t]

/-- Repeatedly apply the owning worker's local pop to a queue (with a fuel
bound on the number of iterations), listing the popped tasks in pop
order. -/
def drainFlatAux : Nat → List TaskId → List TaskId
  | 0, _ => []
  | fuel + 1, q =>
    match popFrontLocal q with
    | none => []
    | some (t, q') => t :: drainFlatAux fuel q'

/-- Drain a flat queue completely through the owning worker's local pop. -/
def drainFlat (q : List TaskId) : List TaskId :=
  drainFlatAux q.length q

/-! ## Priority pool queue operations (`parallel::ThreadPoolPriority`)

`Priority` is `High = 0, Normal = 1, Low = 2, Count = 3`
(`thread_pool_priority.h` lines 20-25). -/

/-- Number of priority levels, `static_cast<int>(Priority::Count)` = 3. -/
def priorityCount : Nat := 3

/-- A freshly constructed priority worker queue: three empty deques
(High, Normal, Low). -/
def emptyPrioQueue : List (List TaskId) := [[], [], []]

/-- Priority-index clamping in `ThreadPoolPriority::submit`,
`thread_pool_priority.h` lines 111-114: `int p_idx = static_cast<int>(prio);
if (p_idx < 0 || p_idx >= static_cast<int>(Priority::Count)) p_idx =
static_cast<int>(Priority::Normal);`.  The incoming `Priority` value is
modelled as the integer it casts to. -/
def clampPrio (p : Int) : Nat :=
  if p < 0 ∨ 3 ≤ p then 1 else p.toNat

/-- Appending a task at the back of the clamped priority level of a worker
queue, `thread_pool_priority.h` line 115:
`queues_[index]->queues[p_idx].emplace_back(...)`. -/
def prioEnqueue (wq : List (List TaskId)) (p : Int) (t : TaskId) :
    List (List TaskId) :=
  wq.set (clampPrio p) (wq.getD (clampPrio p) [] ++ [t])

/-- Local-phase scan of the priority worker,
`thread_pool_priority.cpp` lines 41-48: for `p = 0, 1, 2` in order, take
the FRONT of the first non-empty level and stop.  Returns the level, the
task, and the remaining queue. -/
def scanPopFront : List (List TaskId) → Option (Nat × TaskId × List (List TaskId))
  | [] => none
  | [] :: rest =>
    (scanPopFront rest).map (fun r => (r.1 + 1, r.2.1, [] :: r.2.2))
  | (t :: q) :: rest => some (0, t, q :: rest)

/-- Steal-phase scan of a priority thief,
`thread_pool_priority.cpp` lines 66-78: for `p = 0, 1, 2` in order, take
the BACK of the first non-empty level and stop. -/
def scanPopBack : List (List TaskId) → Option (Nat × TaskId × List (List TaskId))
  | [] => none
  | [] :: rest =>
    (scanPopBack rest).map (fun r => (r.1 + 1, r.2.1, [] :: r.2.2))
  | (t :: q) :: rest =>
    some (0, (t :: q).getLast (List.cons_ne_nil t q),
      (t :: q).dropLast :: rest)

/-- Drain a priority worker queue through the owner's local scan, with a
fuel bound, listing tasks in execution order. -/
def drainPrioAux : Nat → List (List TaskId) → List TaskId
  | 0, _ => []
  | fuel + 1, wq =>
    match scanPopFront wq with
    | none => []
    | some (_, t, wq') => t :: drainPrioAux fuel wq'

/-- Drain a priority worker queue completely (the total number of queued
tasks is enough fuel). -/
def drainPrio (wq : List (List TaskId)) : List TaskId :=
  drainPrioAux (wq.flatMap id).length wq

/-! ## Submission and dispatch -/

/-- Wrap-around bound of the `size_t` round-robin counter. -/
def UINT64LIMIT : Nat := 2 ^ 64

/-- Round-robin dispatch, `thread_pool_fast.h` lines 100-102 and
`thread_pool_priority.h` lines 104-106: `current_queue_index.fetch_add(1)
% queues_.size()`.  The counter is a `static` local of `submit`, so one
shared counter serves every pool instance (of a given instantiation); it
is threaded through here explicitly.  Returns the selected index and the
advanced counter.  When the pool has zero queues the modulo is a division
by zero — undefined behavior in C++ — modelled as `none`. -/
def fastDispatch (ctr numQueues : Nat) : Option Nat × Nat :=
  (if numQueues = 0 then none else some (ctr % numQueues),
    (ctr + 1) % UINT64LIMIT)

/-- Iterated dispatch: the index trace and final counter of `k`
consecutive submissions against `numQueues` queues. -/
def fastDispatchRun (numQueues ctr : Nat) : Nat → List (Option Nat) × Nat
  | 0 => ([], ctr)
  | k + 1 =>
    let d := fastDispatch ctr numQueues
    let rest := fastDispatchRun numQueues d.2 k
    (d.1 :: rest.1, rest.2)

/-- The flat pool's `submit` body, `thread_pool_fast.h` lines 86-115: pick
the queue by round-robin dispatch, append the task at the back under that
queue's lock, notify, and return the handle (modelled by the task id).
The `stop_` member is in scope but never read by `submit`; it is passed
here to make that explicit.  With zero queues the dispatch is undefined
(`none`); otherwise the updated queue vector and the handle are
returned together with the advanced shared counter. -/
def fastSubmit (stop : Bool) (queues : List (List TaskId)) (ctr : Nat)
    (t : TaskId) : Option (List (List TaskId) × TaskId) × Nat :=
  let d := fastDispatch ctr queues.length
  (match d.1 with
   | none => none
   | some idx => some (queues.set idx (fastSubmitQueue (queues.getD idx []) t), t),
   d.2)

/-- The priority pool's `submit` body, `thread_pool_priority.h` lines
94-120: round-robin dispatch, then append at the clamped priority level of
the selected worker queue.  As in the flat pool, `stop_` is never read. -/
def prioSubmit (stop : Bool) (queues : List (List (List TaskId))) (ctr : Nat)
    (p : Int) (t : TaskId) :
    Option (List (List (List TaskId)) × TaskId) × Nat :=
  let d := fastDispatch ctr queues.length
  (match d.1 with
   | none => none
   | some idx => some (queues.set idx (prioEnqueue (queues.getD idx emptyPrioQueue) p t), t),
   d.2)

/-- Queue vector built by `ThreadPoolFast::ThreadPoolFast`
(`thread_pool_fast.cpp` lines 7-9): `num_threads` fresh empty queues. -/
def mkFastQueues (numThreads : Nat) : List (List TaskId) :=
  List.replicate numThreads []

/-- Worker indices spawned by the constructor
(`thread_pool_fast.cpp` lines 13-15): one worker per index below
`num_threads`. -/
def mkFastWorkerIds (numThreads : Nat) : List Nat :=
  List.range numThreads

/-! ## Small-step semantics of the flat pool

Each step is one complete critical section of the C++ code (every queue
mutation happens under that queue's lock, so the locked sections
interleave atomically).  A worker's local variable `task` (the task popped
but not yet executed, `thread_pool_fast.cpp` lines 40-56 and 100-103) is
the worker's "hand". -/

structure FastState where
  /-- One deque per worker, `queues_`. -/
  queues : List (List TaskId)
  /-- The task each worker has popped but not yet finished executing. -/
  hands : List (Option TaskId)
  /-- Tasks whose execution has completed, in completion order. -/
  executed : List TaskId
  /-- The `stop_` flag. -/
  stopped : Bool
  /-- Next fresh task id to hand out at submission. -/
  nextId : Nat

/-- Interleaved steps of the flat pool: `submit` appends a fresh task at
the back of the round-robin-selected queue (`thread_pool_fast.h` lines
100-108; the submit path never consults `stop_`); `localPop` is the local
phase (cpp lines 49-56); `steal` is the steal phase (cpp lines 63-94,
front pop after `try_lock` on a different queue); `execute` runs the task
in hand outside any lock (cpp line 103); `halt` is the destructor setting
`stop_` (cpp line 22). -/
inductive FastStep : FastState → FastState → Prop
  | submit (s : FastState) (i : Nat) (hi : i < s.queues.length) :
      FastStep s { s with
        queues := s.queues.set i (fastSubmitQueue s.queues[i] s.nextId),
        nextId := s.nextId + 1 }
  | localPop (s : FastState) (i : Nat) (t : TaskId) (rest : List TaskId)
      (hi : i < s.queues.length) (hih : i < s.hands.length)
      (hh : s.hands[i] = none)
      (hq : popFrontLocal s.queues[i] = some (t, rest)) :
      FastStep s { s with
        queues := s.queues.set i rest,
        hands := s.hands.set i (some t) }
  | steal (s : FastState) (i v : Nat) (t : TaskId) (rest : List TaskId)
      (hiv : i ≠ v) (hv : v < s.queues.length) (hih : i < s.hands.length)
      (hh : s.hands[i] = none)
      (hq : stealPopFast s.queues[v] = some (t, rest)) :
      FastStep s { s with
        queues := s.queues.set v rest,
        hands := s.hands.set i (some t) }
  | execute (s : FastState) (i : Nat) (t : TaskId) (hih : i < s.hands.length)
      (hh : s.hands[i] = some t) :
      FastStep s { s with
        hands := s.hands.set i none,
        executed := s.executed ++ [t] }
  | halt (s : FastState) :
      FastStep s { s with stopped := true }

/-- The state right after `ThreadPoolFast::ThreadPoolFast(W)`: `W` empty
queues, `W` idle workers, nothing executed, not stopped. -/
def initFast (W : Nat) : FastState :=
  { queues := mkFastQueues W, hands := List.replicate W none,
    executed := [], stopped := false, nextId := 0 }

def FastReachable (W : Nat) (s : FastState) : Prop :=
  Relation.ReflTransGen FastStep (initFast W) s

/-- All task occurrences of a flat pool state: every queue slot, every
worker hand, and the executed list. -/
def FastState.occ (s : FastState) : Multiset TaskId :=
  ↑(s.queues.flatMap id) + ↑(s.hands.flatMap Option.toList) + ↑s.executed

/-! ## Small-step semantics of the priority pool -/

structure PrioState where
  /-- One 3-level worker queue per worker, `queues_`. -/
  queues : List (List (List TaskId))
  /-- The task each worker has popped but not yet finished executing. -/
  hands : List (Option TaskId)
  /-- Tasks whose execution has completed, in completion order. -/
  executed : List TaskId
  /-- The `stop_` flag. -/
  stopped : Bool
  /-- Next fresh task id to hand out at submission. -/
  nextId : Nat

/-- Interleaved steps of the priority pool: `submit` appends a fresh task
at the clamped level of the selected queue (`thread_pool_priority.h` lines
108-116); `localPop` scans High→Normal→Low and pops the front of the first
non-empty level (cpp lines 39-49); `steal` scans the same order on another
worker's queue and pops the back (cpp lines 61-79); `execute` runs the
task in hand (cpp line 88); `halt` sets `stop_` (cpp line 18). -/
inductive PrioStep : PrioState → PrioState → Prop
  | submit (s : PrioState) (i : Nat) (p : Int) (hi : i < s.queues.length) :
      PrioStep s { s with
        queues := s.queues.set i (prioEnqueue s.queues[i] p s.nextId),
        nextId := s.nextId + 1 }
  | localPop (s : PrioState) (i lvl : Nat) (t : TaskId)
      (wq' : List (List TaskId))
      (hi : i < s.queues.length) (hih : i < s.hands.length)
      (hh : s.hands[i] = none)
      (hq : scanPopFront s.queues[i] = some (lvl, t, wq')) :
      PrioStep s { s with
        queues := s.queues.set i wq',
        hands := s.hands.set i (some t) }
  | steal (s : PrioState) (i v lvl : Nat) (t : TaskId)
      (wq' : List (List TaskId))
      (hiv : i ≠ v) (hv : v < s.queues.length) (hih : i < s.hands.length)
      (hh : s.hands[i] = none)
      (hq : scanPopBack s.queues[v] = some (lvl, t, wq')) :
      PrioStep s { s with
        queues := s.queues.set v wq',
        hands := s.hands.set i (some t) }
  | execute (s : PrioState) (i : Nat) (t : TaskId) (hih : i < s.hands.length)
      (hh : s.hands[i] = some t) :
      PrioStep s { s with
        hands := s.hands.set i none,
        executed := s.executed ++ [t] }
  | halt (s : PrioState) :
      PrioStep s { s with stopped := true }

/-- The state right after `ThreadPoolPriority::ThreadPoolPriority(W)`. -/
def initPrio (W : Nat) : PrioState :=
  { queues := List.replicate W emptyPrioQueue,
    hands := List.replicate W none,
    executed := [], stopped := false, nextId := 0 }

def PrioReachable (W : Nat) (s : PrioState) : Prop :=
  Relation.ReflTransGen PrioStep (initPrio W) s

/-- All task occurrences of a priority pool state. -/
def PrioState.occ (s : PrioState) : Multiset TaskId :=
  ↑(s.queues.flatMap (fun wq => wq.flatMap id)) +
    ↑(s.hands.flatMap Option.toList) + ↑s.executed

/-! ## Result handles, execution outcomes and teardown

`submit` wraps the callable in a `std::packaged_task` and returns its
`std::future` (`thread_pool_fast.h` lines 91-94).  The shared state
between the two follows the C++ standard semantics of `packaged_task`:
invoking it runs the user code and stores the returned value or the raised
exception; destroying it uninvoked stores a `broken_promise`
`future_error`. -/

/-- Outcome of running a user callable: a returned value or a raised
exception (both represented by naturals). -/
inductive TaskOutcome
  | value (v : Nat)
  | raised (e : Nat)
deriving DecidableEq

/-- State of a task's one-shot result channel: `pending` until written;
`stored` once `packaged_task::operator()` captured the callable's outcome;
`broken` once the `packaged_task` was destroyed without being invoked. -/
inductive HandleState
  | pending
  | stored (o : TaskOutcome)
  | broken
deriving DecidableEq

/-- What a caller reading the future (`future::get`) observes: `none`
models blocking on a pending handle; a stored value is returned; a stored
exception is re-raised; a broken handle raises
`future_error(broken_promise)` — a distinct terminal condition, not a
hang. -/
inductive ReadOutcome
  | value (v : Nat)
  | raised (e : Nat)
  | brokenPromise
deriving DecidableEq

def readHandle : HandleState → Option ReadOutcome
  | .pending => none
  | .stored (.value v) => some (.value v)
  | .stored (.raised e) => some (.raised e)
  | .broken => some .brokenPromise

/-- Worker execution of a popped task, `thread_pool_fast.cpp` lines
100-103 (and `thread_pool_priority.cpp` line 88): `task()` invokes the
wrapped `packaged_task`, which runs the user callable and stores its
outcome — value or raised exception — into that task's own shared state;
the call returns normally either way, so the worker proceeds with its
loop (`true`).  `body` gives each task's behavior when run. -/
def workerExecute (body : TaskId → TaskOutcome) (t : TaskId)
    (handles : TaskId → HandleState) : (TaskId → HandleState) × Bool :=
  (Function.update handles t (HandleState.stored (body t)), true)

/-- The destructor (`thread_pool_fast.cpp` lines 19-33,
`thread_pool_priority.cpp` lines 17-25): set `stop_`, notify all, join.
A worker that had already popped a task (`found_task == true`) still runs
it to completion before observing `stop_` at the top of its loop; after
the join, destroying `queues_` destroys every still-resident task without
invoking it, which stores `broken_promise` into its shared state.
`inFlight` lists the tasks in workers' hands at stop; `queued` lists the
tasks still resident in queues.  Returns the tasks executed during
teardown and the final handle map. -/
def destructorRun (body : TaskId → TaskOutcome) (inFlight : List TaskId)
    (queued : List TaskId) (handles : TaskId → HandleState) :
    List TaskId × (TaskId → HandleState) :=
  let afterExec := inFlight.foldl (fun h t => (workerExecute body t h).1) handles
  let afterDrop := queued.foldl
    (fun h t => Function.update h t HandleState.broken) afterExec
  (inFlight, afterDrop)

end ThreadPool

namespace ThreadPool

/-! ## Theorems -/

theorem flatMap_set_multiset {α β : Type} (f : α → List β) (v : α) :
    ∀ (l : List α) (i : Nat) (h : i < l.length),
      (↑((l.set i v).flatMap f) : Multiset β) + ↑(f l[i]) =
        ↑(l.flatMap f) + ↑(f v) := by
  intro l
  induction l with
  | nil => intro i h; simp at h
  | cons x xs ih =>
    intro i h
    cases i with
    | zero =>
      simp only [List.set_cons_zero, List.flatMap_cons, List.getElem_cons_zero,
        ← Multiset.coe_add]
      abel
    | succ j =>
      have hj : j < xs.length := by simpa using h
      have hrec := ih j hj
      simp only [List.set_cons_succ, List.flatMap_cons, List.getElem_cons_succ,
        ← Multiset.coe_add]
      rw [add_assoc, add_assoc, hrec]

theorem flatMap_replicate_nil {α β : Type} (f : α → List β) (a : α)
    (hf : f a = []) : ∀ n, (List.replicate n a).flatMap f = [] := by
  intro n
  induction n with
  | zero => rfl
  | succ m ih => simp [List.replicate_succ, List.flatMap_cons, hf, ih]

theorem popFrontLocal_inv {q : List TaskId} {t : TaskId} {rest : List TaskId}
    (h : popFrontLocal q = some (t, rest)) : q = t :: rest := by
  cases q with
  | nil => simp [popFrontLocal] at h
  | cons a as =>
    simp only [popFrontLocal, Option.some.injEq, Prod.mk.injEq] at h
    rw [h.1, h.2]

theorem stealPopFast_inv {q : List TaskId} {t : TaskId} {rest : List TaskId}
    (h : stealPopFast q = some (t, rest)) : q = t :: rest := by
  cases q with
  | nil => simp [stealPopFast] at h
  | cons a as =>
    simp only [stealPopFast, Option.some.injEq, Prod.mk.injEq] at h
    rw [h.1, h.2]

/-- A successful local scan removes exactly one task from the worker
queue and keeps the number of levels. -/
theorem scanPopFront_multiset :
    ∀ (wq : List (List TaskId)) (lvl : Nat) (t : TaskId)
      (wq' : List (List TaskId)), scanPopFront wq = some (lvl, t, wq') →
      (↑(wq'.flatMap id) : Multiset TaskId) + {t} = ↑(wq.flatMap id) ∧
        wq'.length = wq.length := by
  intro wq
  induction wq with
  | nil => intro lvl t wq' h; simp [scanPopFront] at h
  | cons q rest ih =>
    intro lvl t wq' h
    cases q with
    | nil =>
      simp only [scanPopFront, Option.map_eq_some'] at h
      obtain ⟨r, hr, heq⟩ := h
      simp only [Prod.mk.injEq] at heq
      obtain ⟨hlvl, ht, hwq⟩ := heq
      obtain ⟨hm, hl⟩ := ih r.1 r.2.1 r.2.2 (by simpa using hr)
      constructor
      · rw [← hwq, ← ht]
        simpa using hm
      · rw [← hwq]
        simpa using hl
    | cons a as =>
      simp only [scanPopFront, Option.some.injEq, Prod.mk.injEq] at h
      obtain ⟨hlvl, ht, hwq⟩ := h
      constructor
      · rw [← hwq, ← ht]
        simp only [List.flatMap_cons, id_eq, ← Multiset.coe_add,
          ← Multiset.cons_coe, ← Multiset.singleton_add]
        abel
      · rw [← hwq]
        simp

/-- A successful steal scan removes exactly one task from the victim
queue and keeps the number of levels. -/
theorem scanPopBack_multiset :
    ∀ (wq : List (List TaskId)) (lvl : Nat) (t : TaskId)
      (wq' : List (List TaskId)), scanPopBack wq = some (lvl, t, wq') →
      (↑(wq'.flatMap id) : Multiset TaskId) + {t} = ↑(wq.flatMap id) ∧
        wq'.length = wq.length := by
  intro wq
  induction wq with
  | nil => intro lvl t wq' h; simp [scanPopBack] at h
  | cons q rest ih =>
    intro lvl t wq' h
    cases q with
    | nil =>
      simp only [scanPopBack, Option.map_eq_some'] at h
      obtain ⟨r, hr, heq⟩ := h
      simp only [Prod.mk.injEq] at heq
      obtain ⟨hlvl, ht, hwq⟩ := heq
      obtain ⟨hm, hl⟩ := ih r.1 r.2.1 r.2.2 (by simpa using hr)
      constructor
      · rw [← hwq, ← ht]
        simpa using hm
      · rw [← hwq]
        simpa using hl
    | cons a as =>
      simp only [scanPopBack, Option.some.injEq, Prod.mk.injEq] at h
      obtain ⟨hlvl, ht, hwq⟩ := h
      have hfull : (a :: as).dropLast ++ [t] = a :: as := by
        rw [← ht]
        exact List.dropLast_append_getLast (List.cons_ne_nil a as)
      constructor
      · rw [← hwq]
        calc (↑(((a :: as).dropLast :: rest).flatMap id) : Multiset TaskId) + {t}
            = ↑((a :: as).dropLast ++ [t]) + ↑(rest.flatMap id) := by
              simp only [List.flatMap_cons, id_eq, ← Multiset.coe_add,
                Multiset.coe_singleton]
              abel
          _ = ↑(((a :: as) :: rest).flatMap id) := by
              rw [hfull]
              simp only [List.flatMap_cons, id_eq]
              rw [Multiset.coe_add]
      · rw [← hwq]
        simp

theorem clampPrio_lt (p : Int) : clampPrio p < 3 := by
  unfold clampPrio
  split <;> omega

/-- The priority enqueue adds exactly the submitted task to a well-formed
(3-level) worker queue and keeps the number of levels. -/
theorem prioEnqueue_multiset (wq : List (List TaskId)) (p : Int) (t : TaskId)
    (hlen : wq.length = 3) :
    (↑((prioEnqueue wq p t).flatMap id) : Multiset TaskId) =
      ↑(wq.flatMap id) + {t} ∧ (prioEnqueue wq p t).length = wq.length := by
  have hp : clampPrio p < wq.length := by rw [hlen]; exact clampPrio_lt p
  have hgetD : wq.getD (clampPrio p) [] = wq[clampPrio p] := by
    rw [List.getD_eq_getElem?_getD, List.getElem?_eq_getElem hp]
    rfl
  constructor
  · have key := flatMap_set_multiset id (wq.getD (clampPrio p) [] ++ [t]) wq
      (clampPrio p) hp
    simp only [id_eq] at key
    have hval : (↑(wq.getD (clampPrio p) [] ++ [t]) : Multiset TaskId) =
        ↑(wq[clampPrio p]) + {t} := by
      rw [hgetD, ← Multiset.coe_singleton, Multiset.coe_add]
    rw [hval] at key
    have key2 : (↑((prioEnqueue wq p t).flatMap id) : Multiset TaskId) +
        ↑(wq[clampPrio p]) =
        (↑(wq.flatMap id) + {t}) + ↑(wq[clampPrio p]) := by
      calc (↑((prioEnqueue wq p t).flatMap id) : Multiset TaskId) + ↑(wq[clampPrio p])
          = ↑((wq.set (clampPrio p) (wq.getD (clampPrio p) [] ++ [t])).flatMap id) +
              ↑(wq[clampPrio p]) := rfl
        _ = ↑(wq.flatMap id) + (↑(wq[clampPrio p]) + {t}) := key
        _ = (↑(wq.flatMap id) + {t}) + ↑(wq[clampPrio p]) := by abel
    exact add_right_cancel key2
  · simp [prioEnqueue]

/-- One interleaved step of the flat pool preserves task conservation:
the multiset of all task occurrences stays equal to the set of issued
ids. -/
theorem fastStep_occ {s s' : FastState} (h : FastStep s s')
    (inv : s.occ = Multiset.range s.nextId) :
    s'.occ = Multiset.range s'.nextId := by
  cases h with
  | submit i hi =>
    have key := flatMap_set_multiset id (fastSubmitQueue s.queues[i] s.nextId)
      s.queues i hi
    simp only [id_eq] at key
    have hval : (↑(fastSubmitQueue s.queues[i] s.nextId) : Multiset TaskId) =
        ↑(s.queues[i]) + {s.nextId} := by
      rw [fastSubmitQueue, ← Multiset.coe_singleton, Multiset.coe_add]
    rw [hval] at key
    have key2 : (↑((s.queues.set i (fastSubmitQueue s.queues[i] s.nextId)).flatMap id)
          : Multiset TaskId) = ↑(s.queues.flatMap id) + {s.nextId} := by
      refine add_right_cancel (b := (↑(s.queues[i]) : Multiset TaskId)) ?_
      rw [key]
      abel
    show (↑((s.queues.set i (fastSubmitQueue s.queues[i] s.nextId)).flatMap id)
        : Multiset TaskId) + ↑(s.hands.flatMap Option.toList) + ↑s.executed =
      Multiset.range (s.nextId + 1)
    rw [key2, Multiset.range_succ, ← Multiset.singleton_add, ← inv]
    show _ = {s.nextId} + ((_ + _) + _)
    abel
  | localPop i t rest hi hih hh hq =>
    have hqi : s.queues[i] = t :: rest := popFrontLocal_inv hq
    have keyQ := flatMap_set_multiset id rest s.queues i hi
    simp only [id_eq, hqi] at keyQ
    have eq1 : (↑((s.queues.set i rest).flatMap id) : Multiset TaskId) + {t} =
        ↑(s.queues.flatMap id) := by
      refine add_right_cancel (b := (↑rest : Multiset TaskId)) ?_
      calc (↑((s.queues.set i rest).flatMap id) : Multiset TaskId) + {t} + ↑rest
          = ↑((s.queues.set i rest).flatMap id) + ↑(t :: rest) := by
            rw [← Multiset.cons_coe, ← Multiset.singleton_add]
            abel
        _ = ↑(s.queues.flatMap id) + ↑rest := keyQ
    have keyH := flatMap_set_multiset Option.toList (some t) s.hands i hih
    rw [hh] at keyH
    have eq2 : (↑((s.hands.set i (some t)).flatMap Option.toList) : Multiset TaskId) =
        ↑(s.hands.flatMap Option.toList) + {t} := by
      simpa using keyH
    show (↑((s.queues.set i rest).flatMap id) : Multiset TaskId) +
        ↑((s.hands.set i (some t)).flatMap Option.toList) + ↑s.executed =
      Multiset.range s.nextId
    rw [eq2, ← inv]
    show _ = (_ + _) + _
    rw [← eq1]
    abel
  | steal i v t rest hiv hv hih hh hq =>
    have hqv : s.queues[v] = t :: rest := stealPopFast_inv hq
    have keyQ := flatMap_set_multiset id rest s.queues v hv
    simp only [id_eq, hqv] at keyQ
    have eq1 : (↑((s.queues.set v rest).flatMap id) : Multiset TaskId) + {t} =
        ↑(s.queues.flatMap id) := by
      refine add_right_cancel (b := (↑rest : Multiset TaskId)) ?_
      calc (↑((s.queues.set v rest).flatMap id) : Multiset TaskId) + {t} + ↑rest
          = ↑((s.queues.set v rest).flatMap id) + ↑(t :: rest) := by
            rw [← Multiset.cons_coe, ← Multiset.singleton_add]
            abel
        _ = ↑(s.queues.flatMap id) + ↑rest := keyQ
    have keyH := flatMap_set_multiset Option.toList (some t) s.hands i hih
    rw [hh] at keyH
    have eq2 : (↑((s.hands.set i (some t)).flatMap Option.toList) : Multiset TaskId) =
        ↑(s.hands.flatMap Option.toList) + {t} := by
      simpa using keyH
    show (↑((s.queues.set v rest).flatMap id) : Multiset TaskId) +
        ↑((s.hands.set i (some t)).flatMap Option.toList) + ↑s.executed =
      Multiset.range s.nextId
    rw [eq2, ← inv]
    show _ = (_ + _) + _
    rw [← eq1]
    abel
  | execute i t hih hh =>
    have keyH := flatMap_set_multiset Option.toList none s.hands i hih
    rw [hh] at keyH
    have eq1 : (↑((s.hands.set i none).flatMap Option.toList) : Multiset TaskId) + {t} =
        ↑(s.hands.flatMap Option.toList) := by
      simpa using keyH
    show (↑(s.queues.flatMap id) : Multiset TaskId) +
        ↑((s.hands.set i none).flatMap Option.toList) + ↑(s.executed ++ [t]) =
      Multiset.range s.nextId
    rw [← inv]
    show _ = (↑(s.queues.flatMap id) : Multiset TaskId) +
        ↑(s.hands.flatMap Option.toList) + ↑s.executed
    rw [← eq1, ← Multiset.coe_add, Multiset.coe_singleton]
    abel
  | halt => exact inv

/-- Every reachable flat-pool state conserves tasks: the occurrences are
exactly the ids issued so far. -/
theorem fastReachable_occ {W : Nat} {s : FastState} (h : FastReachable W s) :
    s.occ = Multiset.range s.nextId := by
  induction h with
  | refl =>
    show (↑((mkFastQueues W).flatMap id) : Multiset TaskId) +
        ↑((List.replicate W (none : Option TaskId)).flatMap Option.toList) +
        ↑([] : List TaskId) = Multiset.range 0
    rw [mkFastQueues, flatMap_replicate_nil id ([] : List TaskId) rfl,
      flatMap_replicate_nil Option.toList (none : Option TaskId) rfl]
    rfl
  | tail hreach hstep ih => exact fastStep_occ hstep ih

/-- One interleaved step of the priority pool preserves task conservation
and the 3-level well-formedness of every worker queue. -/
theorem prioStep_inv {s s' : PrioState} (h : PrioStep s s')
    (inv : s.occ = Multiset.range s.nextId)
    (hwf : ∀ wq ∈ s.queues, wq.length = 3) :
    s'.occ = Multiset.range s'.nextId ∧ ∀ wq ∈ s'.queues, wq.length = 3 := by
  cases h with
  | submit i p hi =>
    have hqi3 : s.queues[i].length = 3 := hwf _ (List.getElem_mem hi)
    obtain ⟨henq, hlen⟩ := prioEnqueue_multiset s.queues[i] p s.nextId hqi3
    have key := flatMap_set_multiset (fun wq => wq.flatMap id)
      (prioEnqueue s.queues[i] p s.nextId) s.queues i hi
    simp only [henq] at key
    have key2 : (↑((s.queues.set i (prioEnqueue s.queues[i] p s.nextId)).flatMap
          (fun wq => wq.flatMap id)) : Multiset TaskId) =
        ↑(s.queues.flatMap (fun wq => wq.flatMap id)) + {s.nextId} := by
      refine add_right_cancel (b := (↑(s.queues[i].flatMap id) : Multiset TaskId)) ?_
      rw [key]
      abel
    constructor
    · show (↑((s.queues.set i (prioEnqueue s.queues[i] p s.nextId)).flatMap
          (fun wq => wq.flatMap id)) : Multiset TaskId) +
          ↑(s.hands.flatMap Option.toList) + ↑s.executed =
        Multiset.range (s.nextId + 1)
      rw [key2, Multiset.range_succ, ← Multiset.singleton_add, ← inv]
      show _ = {s.nextId} + ((_ + _) + _)
      abel
    · intro wq hm
      rcases List.mem_or_eq_of_mem_set hm with h1 | h2
      · exact hwf wq h1
      · exact h2 ▸ (hlen.trans hqi3)
  | localPop i lvl t wq' hi hih hh hq =>
    obtain ⟨hm, hl⟩ := scanPopFront_multiset s.queues[i] lvl t wq' hq
    have key := flatMap_set_multiset (fun wq => wq.flatMap id) wq' s.queues i hi
    have eq1 : (↑((s.queues.set i wq').flatMap (fun wq => wq.flatMap id))
          : Multiset TaskId) + {t} =
        ↑(s.queues.flatMap (fun wq => wq.flatMap id)) := by
      refine add_right_cancel (b := (↑(wq'.flatMap id) : Multiset TaskId)) ?_
      calc (↑((s.queues.set i wq').flatMap (fun wq => wq.flatMap id))
            : Multiset TaskId) + {t} + ↑(wq'.flatMap id)
          = ↑((s.queues.set i wq').flatMap (fun wq => wq.flatMap id)) +
              (↑(wq'.flatMap id) + {t}) := by abel
        _ = ↑((s.queues.set i wq').flatMap (fun wq => wq.flatMap id)) +
              ↑(s.queues[i].flatMap id) := by rw [hm]
        _ = ↑(s.queues.flatMap (fun wq => wq.flatMap id)) + ↑(wq'.flatMap id) := key
    have keyH := flatMap_set_multiset Option.toList (some t) s.hands i hih
    rw [hh] at keyH
    have eq2 : (↑((s.hands.set i (some t)).flatMap Option.toList) : Multiset TaskId) =
        ↑(s.hands.flatMap Option.toList) + {t} := by
      simpa using keyH
    constructor
    · show (↑((s.queues.set i wq').flatMap (fun wq => wq.flatMap id))
          : Multiset TaskId) +
          ↑((s.hands.set i (some t)).flatMap Option.toList) + ↑s.executed =
        Multiset.range s.nextId
      rw [eq2, ← inv]
      show _ = (_ + _) + _
      rw [← eq1]
      abel
    · intro wq hmem
      rcases List.mem_or_eq_of_mem_set hmem with h1 | h2
      · exact hwf wq h1
      · exact h2 ▸ (hl.trans (hwf _ (List.getElem_mem hi)))
  | steal i v lvl t wq' hiv hv hih hh hq =>
    obtain ⟨hm, hl⟩ := scanPopBack_multiset s.queues[v] lvl t wq' hq
    have key := flatMap_set_multiset (fun wq => wq.flatMap id) wq' s.queues v hv
    have eq1 : (↑((s.queues.set v wq').flatMap (fun wq => wq.flatMap id))
          : Multiset TaskId) + {t} =
        ↑(s.queues.flatMap (fun wq => wq.flatMap id)) := by
      refine add_right_cancel (b := (↑(wq'.flatMap id) : Multiset TaskId)) ?_
      calc (↑((s.queues.set v wq').flatMap (fun wq => wq.flatMap id))
            : Multiset TaskId) + {t} + ↑(wq'.flatMap id)
          = ↑((s.queues.set v wq').flatMap (fun wq => wq.flatMap id)) +
              (↑(wq'.flatMap id) + {t}) := by abel
        _ = ↑((s.queues.set v wq').flatMap (fun wq => wq.flatMap id)) +
              ↑(s.queues[v].flatMap id) := by rw [hm]
        _ = ↑(s.queues.flatMap (fun wq => wq.flatMap id)) + ↑(wq'.flatMap id) := key
    have keyH := flatMap_set_multiset Option.toList (some t) s.hands i hih
    rw [hh] at keyH
    have eq2 : (↑((s.hands.set i (some t)).flatMap Option.toList) : Multiset TaskId) =
        ↑(s.hands.flatMap Option.toList) + {t} := by
      simpa using keyH
    constructor
    · show (↑((s.queues.set v wq').flatMap (fun wq => wq.flatMap id))
          : Multiset TaskId) +
          ↑((s.hands.set i (some t)).flatMap Option.toList) + ↑s.executed =
        Multiset.range s.nextId
      rw [eq2, ← inv]
      show _ = (_ + _) + _
      rw [← eq1]
      abel
    · intro wq hmem
      rcases List.mem_or_eq_of_mem_set hmem with h1 | h2
      · exact hwf wq h1
      · exact h2 ▸ (hl.trans (hwf _ (List.getElem_mem hv)))
  | execute i t hih hh =>
    have keyH := flatMap_set_multiset Option.toList none s.hands i hih
    rw [hh] at keyH
    have eq1 : (↑((s.hands.set i none).flatMap Option.toList) : Multiset TaskId) +
        {t} = ↑(s.hands.flatMap Option.toList) := by
      simpa using keyH
    refine ⟨?_, hwf⟩
    show (↑(s.queues.flatMap (fun wq => wq.flatMap id)) : Multiset TaskId) +
        ↑((s.hands.set i none).flatMap Option.toList) + ↑(s.executed ++ [t]) =
      Multiset.range s.nextId
    rw [← inv]
    show _ = (↑(s.queues.flatMap (fun wq => wq.flatMap id)) : Multiset TaskId) +
        ↑(s.hands.flatMap Option.toList) + ↑s.executed
    rw [← eq1, ← Multiset.coe_add, Multiset.coe_singleton]
    abel
  | halt => exact ⟨inv, hwf⟩

/-- Every reachable priority-pool state conserves tasks and keeps every
worker queue at exactly 3 levels. -/
theorem prioReachable_inv {W : Nat} {s : PrioState} (h : PrioReachable W s) :
    s.occ = Multiset.range s.nextId ∧ ∀ wq ∈ s.queues, wq.length = 3 := by
  induction h with
  | refl =>
    constructor
    · show (↑((List.replicate W emptyPrioQueue).flatMap (fun wq => wq.flatMap id))
          : Multiset TaskId) +
          ↑((List.replicate W (none : Option TaskId)).flatMap Option.toList) +
          ↑([] : List TaskId) = Multiset.range 0
      rw [flatMap_replicate_nil (fun wq => wq.flatMap id) emptyPrioQueue rfl,
        flatMap_replicate_nil Option.toList (none : Option TaskId) rfl]
      rfl
    · intro wq hm
      rw [List.eq_of_mem_replicate hm]
      rfl
  | tail hreach hstep ih => exact prioStep_inv hstep ih.1 ih.2

/-- C1: task conservation for both pools.  In every state reachable by any
interleaving of submits, locked local pops, locked steals, executions and
stop, the multiset of all task occurrences (queue slots, worker hands,
executed list) is exactly the set of ids issued so far: no task is ever
duplicated (the executed list stays duplicate-free, so nothing runs
twice), and no task vanishes (every issued id still occurs exactly once
across the queues, the hands and the executed list). -/
theorem task_conservation (W1 : Nat) (s1 : FastState) (W2 : Nat)
    (s2 : PrioState) :
    (FastReachable W1 s1 →
      s1.occ = Multiset.range s1.nextId ∧ s1.executed.Nodup ∧
        ∀ t, t < s1.nextId → Multiset.count t s1.occ = 1) ∧
    (PrioReachable W2 s2 →
      s2.occ = Multiset.range s2.nextId ∧ s2.executed.Nodup ∧
        ∀ t, t < s2.nextId → Multiset.count t s2.occ = 1) := by
  constructor
  · intro h
    have hocc := fastReachable_occ h
    have hnodup : s1.occ.Nodup := by
      rw [hocc]; exact Multiset.nodup_range s1.nextId
    refine ⟨hocc, ?_, ?_⟩
    · have hle : (↑s1.executed : Multiset TaskId) ≤ s1.occ :=
        Multiset.le_add_left _ _
      exact Multiset.coe_nodup.mp (Multiset.nodup_of_le hle hnodup)
    · intro t ht
      rw [hocc]
      exact Multiset.count_eq_one_of_mem (Multiset.nodup_range _)
        (Multiset.mem_range.mpr ht)
  · intro h
    have hocc := (prioReachable_inv h).1
    have hnodup : s2.occ.Nodup := by
      rw [hocc]; exact Multiset.nodup_range s2.nextId
    refine ⟨hocc, ?_, ?_⟩
    · have hle : (↑s2.executed : Multiset TaskId) ≤ s2.occ :=
        Multiset.le_add_left _ _
      exact Multiset.coe_nodup.mp (Multiset.nodup_of_le hle hnodup)
    · intro t ht
      rw [hocc]
      exact Multiset.count_eq_one_of_mem (Multiset.nodup_range _)
        (Multiset.mem_range.mpr ht)

/-- Witness for `task_conservation` at the freshly constructed 1-worker
pools (reachable by the empty step sequence). -/
theorem task_conservation_witness :
    FastReachable 1 (initFast 1) ∧ PrioReachable 1 (initPrio 1) ∧
      (initFast 1).occ = Multiset.range 0 ∧ (initPrio 1).executed.Nodup := by
  refine ⟨Relation.ReflTransGen.refl, Relation.ReflTransGen.refl, ?_, ?_⟩
  · exact ((task_conservation 1 (initFast 1) 1 (initPrio 1)).1
      Relation.ReflTransGen.refl).1
  · exact ((task_conservation 1 (initFast 1) 1 (initPrio 1)).2
      Relation.ReflTransGen.refl).2.1

/-- C3 counterexample: on the concrete victim deque `[0, 1]` (front `0`,
back `1`) the flat steal pop removes `0`, the front element, which is not
the back element `1`. -/
theorem fast_steal_not_back_counterexample :
    stealPopFast [0, 1] = some (0, [1]) ∧
      ([0, 1] : List TaskId).getLast? = some 1 ∧ (0 : TaskId) ≠ 1 := by
  refine ⟨rfl, rfl, by decide⟩

/-- C3 (amended): in the flat pool's steal phase, a successful steal from a
non-empty victim queue removes the FRONT element of the single sequence
(the same end the owner pops), not the back. -/
theorem fast_steal_takes_front (q : List TaskId) (h : q ≠ []) :
    stealPopFast q = some (q.head h, q.tail) := by
  cases q with
  | nil => exact absurd rfl h
  | cons a as => rfl

/-- Witness for `fast_steal_takes_front` at the concrete queue `[3, 4]`. -/
theorem fast_steal_takes_front_witness :
    ([3, 4] : List TaskId) ≠ [] ∧ stealPopFast [3, 4] = some (3, [4]) :=
  ⟨by decide, fast_steal_takes_front [3, 4] (by decide)⟩

theorem drainFlatAux_id (q : List TaskId) : drainFlatAux q.length q = q := by
  induction q with
  | nil => rfl
  | cons a as ih =>
    simp only [List.length_cons, drainFlatAux, popFrontLocal, ih]

theorem drainFlat_id (q : List TaskId) : drainFlat q = q :=
  drainFlatAux_id q

/-- Levels scanned before the level a successful local pop returns from
are all empty: the scan takes the first non-empty level in index order. -/
theorem scanPopFront_earlier_levels_empty :
    ∀ (wq : List (List TaskId)) (p : Nat) (t : TaskId)
      (wq' : List (List TaskId)), scanPopFront wq = some (p, t, wq') →
      ∀ j, j < p → wq[j]? = some [] := by
  intro wq
  induction wq with
  | nil => intro p t wq' h; simp [scanPopFront] at h
  | cons q rest ih =>
    intro p t wq' h j hj
    cases q with
    | nil =>
      simp only [scanPopFront, Option.map_eq_some'] at h
      obtain ⟨r, hr, heq⟩ := h
      simp only [Prod.mk.injEq] at heq
      obtain ⟨hp, ht, hq⟩ := heq
      cases j with
      | zero => simp
      | succ k =>
        have hk : k < r.1 := by omega
        simpa using ih r.1 r.2.1 r.2.2 (by simpa using hr) k hk
    | cons a as =>
      simp only [scanPopFront, Option.some.injEq, Prod.mk.injEq] at h
      omega

/-- C4: local priority precedence.  First, generally: whenever the
priority worker's local scan pops a task from level `p`, every level
before `p` (in particular High, level 0, whenever a Normal or Low task is
taken) is empty in its own queue — so a worker never executes a Low task
while a High task sits in its own queue.  Second, the concrete scenario:
with one worker, submitting Low task 1, then High task 2, then Low task 3
before any pop, the drain order is `[2, 1, 3]`: the High task runs before
both Low tasks despite being submitted between them. -/
theorem prio_local_precedence :
    (∀ (wq : List (List TaskId)) (p : Nat) (t : TaskId)
        (wq' : List (List TaskId)), scanPopFront wq = some (p, t, wq') →
        ∀ j, j < p → wq[j]? = some []) ∧
      drainPrio (prioEnqueue (prioEnqueue (prioEnqueue emptyPrioQueue 2 1) 0 2) 2 3) =
        [2, 1, 3] :=
  ⟨scanPopFront_earlier_levels_empty, by decide⟩

/-- Witness for `prio_local_precedence`: popping from the Low level (2) of
the concrete queue `[[], [], [7]]` has empty High and Normal levels. -/
theorem prio_local_precedence_witness :
    scanPopFront [[], [], [7]] = some (2, 7, [[], [], []]) ∧
      ([[], [], [7]] : List (List TaskId))[0]? = some [] := by
  refine ⟨by decide, ?_⟩
  exact prio_local_precedence.1 [[], [], [7]] 2 7 [[], [], []] (by decide) 0
    (by decide)

/-- C10: an out-of-range priority value (outside `{0, 1, 2}`, such as
`Priority::Count = 3` or a negative cast) is clamped to the Normal level
(1) before indexing the per-level array: the clamped index is always a
valid level, the enqueue behaves exactly like a Normal-priority enqueue,
and the task lands in the Normal deque rather than being dropped. -/
theorem prio_submit_clamps_out_of_range (p : Int) (h : p < 0 ∨ 3 ≤ p) :
    clampPrio p = 1 ∧ clampPrio p < priorityCount ∧
      (∀ wq t, prioEnqueue wq p t = prioEnqueue wq 1 t) ∧
      ∀ t, prioEnqueue emptyPrioQueue p t = [[], [t], []] := by
  have hc : clampPrio p = 1 := by simp [clampPrio, h]
  refine ⟨hc, by rw [hc]; decide, ?_, ?_⟩
  · intro wq t
    show wq.set (clampPrio p) _ = wq.set (clampPrio 1) _
    rw [hc]
    rfl
  · intro t
    show emptyPrioQueue.set (clampPrio p) _ = _
    rw [hc]
    rfl

/-- Witness for `prio_submit_clamps_out_of_range` at `Priority::Count`
(the integer 3): task 5 is enqueued at the Normal level. -/
theorem prio_submit_clamps_out_of_range_witness :
    clampPrio 3 = 1 ∧ prioEnqueue emptyPrioQueue 3 5 = [[], [5], []] :=
  ⟨(prio_submit_clamps_out_of_range 3 (Or.inr (by decide))).1,
    (prio_submit_clamps_out_of_range 3 (Or.inr (by decide))).2.2.2 5⟩

/-- C2: neither `ThreadPoolFast::submit` nor `ThreadPoolPriority::submit`
ever reads the `stop_` flag: submission with the stop flag set behaves
exactly as with it clear, and on a concrete post-stop call the task is
silently appended to a queue and a handle is returned as if accepted — no
`RejectedSubmission` error exists on this path (only the naive baseline
`ThreadPool::AddTask` throws on stop). -/
theorem submit_never_checks_stop :
    (∀ q c t, fastSubmit true q c t = fastSubmit false q c t) ∧
      fastSubmit true [[]] 0 7 = (some ([[7]], 7), 1) ∧
      (∀ q c p t, prioSubmit true q c p t = prioSubmit false q c p t) ∧
      prioSubmit true [emptyPrioQueue] 0 2 7 = (some ([[[], [], [7]]], 7), 1) := by
  refine ⟨fun q c t => rfl, by decide, fun q c p t => rfl, by decide⟩

/-- C9 counterexample: with `thread_count == 0` the queue vector is empty,
and `submit` does NOT complete with a handle — its index computation
`counter % queues_.size()` is a modulo by zero (undefined behavior in C++,
modelled as `none`), so no `ResultHandle` is produced. -/
theorem zero_workers_submit_counterexample :
    mkFastQueues 0 = [] ∧ (fastSubmit false (mkFastQueues 0) 0 7).1 = none :=
  ⟨rfl, rfl⟩

/-- C9 (amended): constructing with `thread_count == 0` yields a pool with
no queues and no workers, and every subsequent `submit` (flat or priority)
hits the modulo-by-zero in its index computation: it is undefined rather
than total, and never returns a handle. -/
theorem zero_workers_degenerate :
    mkFastQueues 0 = [] ∧ mkFastWorkerIds 0 = [] ∧
      (∀ s c t, (fastSubmit s (mkFastQueues 0) c t).1 = none) ∧
      ∀ s c p t, (prioSubmit s ([] : List (List (List TaskId))) c p t).1 = none := by
  refine ⟨rfl, rfl, fun s c t => rfl, fun s c p t => rfl⟩

theorem reduceOption_map_mk_some (l : List Nat) (g : Nat → Nat) :
    (l.map (fun j => some (g j))).reduceOption = l.map g := by
  induction l with
  | nil => rfl
  | cons a as ih =>
    simp only [List.map_cons, List.reduceOption_cons_of_some, ih]

/-- The index trace of `k` consecutive dispatches: while the shared counter
does not wrap, the `j`-th dispatch selects index `(c + j) % W`. -/
theorem fastDispatchRun_trace (W : Nat) :
    ∀ (k c : Nat), (∀ j, j < k → c + j < UINT64LIMIT) →
      (fastDispatchRun W c k).1 =
        (List.range k).map (fun j => if W = 0 then none else some ((c + j) % W)) := by
  intro k
  induction k with
  | zero => intro c h; rfl
  | succ k ih =>
    intro c h
    have htail : (fastDispatchRun W (fastDispatch c W).2 k).1 =
        (List.range k).map (fun j => if W = 0 then none else some ((c + (j + 1)) % W)) := by
      by_cases hk : k = 0
      · subst hk; rfl
      · have hc1 : c + 1 < UINT64LIMIT := h 1 (by omega)
        show (fastDispatchRun W ((c + 1) % UINT64LIMIT) k).1 = _
        rw [Nat.mod_eq_of_lt hc1,
          ih (c + 1) (fun j hj => by have := h (j + 1) (by omega); omega)]
        refine List.map_congr_left (fun a ha => ?_)
        have hadd : c + 1 + a = c + (a + 1) := by omega
        rw [hadd]
    show (fastDispatch c W).1 :: (fastDispatchRun W (fastDispatch c W).2 k).1 = _
    rw [htail, List.range_succ_eq_map, List.map_cons, List.map_map]
    rfl

/-- Rotating the window of `W` consecutive counter values leaves the set of
selected queue indices `{0, ..., W - 1}` unchanged: `j ↦ (c + j) % W` on
`range W` is a permutation of `range W`. -/
theorem range_mod_shift_perm (W : Nat) (c : Nat) :
    ((List.range W).map (fun j => (c + j) % W)).Perm (List.range W) := by
  induction c with
  | zero =>
    have h0 : ∀ j ∈ List.range W, (0 + j) % W = j := fun j hj => by
      rw [Nat.zero_add]; exact Nat.mod_eq_of_lt (List.mem_range.mp hj)
    rw [List.map_congr_left h0]
    simp
  | succ c ih =>
    have key : ((List.range W).map (fun j => (c + j) % W)) ++ [c % W] =
        (c % W) :: (List.range W).map (fun j => (c + 1 + j) % W) := by
      have e1 : (List.range W).map (fun j => (c + j) % W) ++ [(c + W) % W] =
          (List.range (W + 1)).map (fun j => (c + j) % W) := by
        rw [List.range_succ, List.map_append]
        rfl
      have e2 : (List.range (W + 1)).map (fun j => (c + j) % W) =
          ((c + 0) % W) :: ((List.range W).map Nat.succ).map (fun j => (c + j) % W) := by
        rw [List.range_succ_eq_map, List.map_cons]
      have e3 : ((List.range W).map Nat.succ).map (fun j => (c + j) % W) =
          (List.range W).map (fun j => (c + 1 + j) % W) := by
        rw [List.map_map]
        refine List.map_congr_left (fun a ha => ?_)
        show (c + (a + 1)) % W = (c + 1 + a) % W
        congr 1
        omega
      rw [Nat.add_mod_right] at e1
      rw [e1, e2, e3, Nat.add_zero]
    have p1 : (((List.range W).map (fun j => (c + j) % W)) ++ [c % W]).Perm
        ((c % W) :: (List.range W).map (fun j => (c + j) % W)) :=
      List.perm_append_singleton _ _
    have p2 : ((c % W) :: (List.range W).map (fun j => (c + 1 + j) % W)).Perm
        ((c % W) :: (List.range W).map (fun j => (c + j) % W)) := key ▸ p1
    exact p2.cons_inv.trans ih

/-- C7: round-robin dispatch.  (1) With at least one queue, every submit
selects index `counter % numQueues` and advances the counter by one (with
64-bit wrap).  (2) `W` consecutive submissions to a `W`-queue pool (while
the counter does not wrap) select each queue index exactly once — the
indices cycle through all the queues evenly.  (3, 4) The counter is a
single piece of state threaded through all submits of the pool class, so a
submission to a second coexisting pool instance proceeds from the counter
value the first pool's submission left behind, for both the flat and the
priority variant. -/
theorem round_robin_dispatch :
    (∀ c W, 0 < W →
        fastDispatch c W = (some (c % W), (c + 1) % UINT64LIMIT)) ∧
      (∀ c W, 0 < W → c + W ≤ UINT64LIMIT →
        ((fastDispatchRun W c W).1.reduceOption : Multiset Nat) = Multiset.range W) ∧
      (∀ qA qB c tA tB,
        fastSubmit false qB (fastSubmit false qA c tA).2 tB =
          fastSubmit false qB ((c + 1) % UINT64LIMIT) tB) ∧
      (∀ (qA qB : List (List (List TaskId))) c pA pB tA tB,
        prioSubmit false qB (prioSubmit false qA c pA tA).2 pB tB =
          prioSubmit false qB ((c + 1) % UINT64LIMIT) pB tB) := by
  refine ⟨?_, ?_, fun qA qB c tA tB => rfl, fun qA qB c pA pB tA tB => rfl⟩
  · intro c W hW
    have hW0 : ¬ W = 0 := by omega
    simp [fastDispatch, hW0]
  · intro c W hW hbound
    have hW0 : ¬ W = 0 := by omega
    rw [fastDispatchRun_trace W W c (fun j hj => by omega)]
    simp only [hW0, if_false]
    rw [reduceOption_map_mk_some]
    exact Multiset.coe_eq_coe.mpr (range_mod_shift_perm W c)

/-- Witness for `round_robin_dispatch` at counter 5 with 3 queues (and a
2-queue pool A followed by a 1-queue pool B sharing the counter). -/
theorem round_robin_dispatch_witness :
    fastDispatch 5 3 = (some 2, 6) ∧
      ((fastDispatchRun 3 5 3).1.reduceOption : Multiset Nat) = Multiset.range 3 ∧
      fastSubmit false [[]] (fastSubmit false [[], []] 5 1).2 2 =
        fastSubmit false [[]] 6 2 := by
  refine ⟨?_, round_robin_dispatch.2.1 5 3 (by decide) (by decide), ?_⟩
  · exact (round_robin_dispatch.1 5 3 (by decide)).trans (by decide)
  · exact (round_robin_dispatch.2.2.1 [[], []] [[]] 5 1 2).trans (by decide)

/-- C5: for the single queue of a 1-worker flat pool, tasks submitted in
order (each appended at the back by `submit`) and popped by the owning
worker's local phase (each removed from the front) come out in submission
order: the owner pop sequence equals the push sequence. -/
theorem fast_single_worker_fifo (ts : List TaskId) :
    drainFlat (ts.foldl fastSubmitQueue []) = ts := by
  have key : ∀ (acc : List TaskId),
      ts.foldl fastSubmitQueue acc = acc ++ ts := by
    induction ts with
    | nil => intro acc; simp
    | cons a as ih =>
      intro acc
      simp only [List.foldl_cons, ih, fastSubmitQueue]
      simp
  rw [key, List.nil_append, drainFlat_id]

theorem foldl_update_of_not_mem (upd : TaskId → HandleState) :
    ∀ (l : List TaskId) (h : TaskId → HandleState) (t : TaskId), t ∉ l →
      (l.foldl (fun h x => Function.update h x (upd x)) h) t = h t := by
  intro l
  induction l with
  | nil => intro h t ht; rfl
  | cons a as ih =>
    intro h t ht
    have hne : t ≠ a := fun hc => ht (hc ▸ List.mem_cons_self a as)
    have htas : t ∉ as := fun hc => ht (List.mem_cons_of_mem a hc)
    simp only [List.foldl_cons]
    rw [ih _ t htas, Function.update_noteq hne]

theorem foldl_update_of_mem (upd : TaskId → HandleState) :
    ∀ (l : List TaskId) (h : TaskId → HandleState) (t : TaskId), t ∈ l →
      (l.foldl (fun h x => Function.update h x (upd x)) h) t = upd t := by
  intro l
  induction l with
  | nil => intro h t ht; simp at ht
  | cons a as ih =>
    intro h t ht
    simp only [List.foldl_cons]
    by_cases hta : t ∈ as
    · exact ih _ t hta
    · have hteq : t = a := by
        rcases List.mem_cons.mp ht with h1 | h2
        · exact h1
        · exact absurd h2 hta
      subst hteq
      rw [foldl_update_of_not_mem upd as _ t hta, Function.update_same]

/-- C6: at destruction, a task `t` still resident in a queue (and in no
worker's hand) is not among the tasks executed during teardown, its handle
is never written with an outcome — it ends `broken` — and a reader of
that handle observes the distinct `broken_promise` terminal condition
instead of blocking; meanwhile every task already popped before stop is
executed to completion, and its handle (if the task is not also queued,
which conservation rules out) holds its real outcome. -/
theorem destructor_drops_queued_runs_popped
    (body : TaskId → TaskOutcome) (inFlight queued : List TaskId)
    (handles : TaskId → HandleState) (t : TaskId)
    (hq : t ∈ queued) (hdisj : t ∉ inFlight) :
    (destructorRun body inFlight queued handles).2 t = HandleState.broken ∧
      t ∉ (destructorRun body inFlight queued handles).1 ∧
      readHandle ((destructorRun body inFlight queued handles).2 t) =
        some ReadOutcome.brokenPromise ∧
      (∀ u ∈ inFlight, u ∈ (destructorRun body inFlight queued handles).1) ∧
      (∀ u ∈ inFlight, u ∉ queued →
        (destructorRun body inFlight queued handles).2 u =
          HandleState.stored (body u)) := by
  have hdrop : (destructorRun body inFlight queued handles).2 t =
      HandleState.broken :=
    foldl_update_of_mem (fun _ => HandleState.broken) queued _ t hq
  refine ⟨hdrop, hdisj, by rw [hdrop]; rfl, fun u hu => hu, ?_⟩
  intro u hu hnq
  show (queued.foldl (fun h x => Function.update h x HandleState.broken)
      (inFlight.foldl (fun h t => (workerExecute body t h).1) handles)) u = _
  rw [foldl_update_of_not_mem (fun _ => HandleState.broken) queued _ u hnq]
  exact foldl_update_of_mem (fun x => HandleState.stored (body x)) inFlight
    handles u hu

/-- Witness for `destructor_drops_queued_runs_popped`: task 0 is in a
worker's hand, task 1 is still queued; teardown breaks handle 1 and stores
the outcome of task 0. -/
theorem destructor_drops_queued_runs_popped_witness :
    (1 : TaskId) ∈ [1] ∧ (1 : TaskId) ∉ [0] ∧
      (destructorRun (fun t => TaskOutcome.value t) [0] [1]
        (fun _ => HandleState.pending)).2 1 = HandleState.broken ∧
      (destructorRun (fun t => TaskOutcome.value t) [0] [1]
        (fun _ => HandleState.pending)).2 0 =
        HandleState.stored (TaskOutcome.value 0) := by
  refine ⟨by decide, by decide, ?_, ?_⟩
  · exact (destructor_drops_queued_runs_popped (fun t => TaskOutcome.value t)
      [0] [1] (fun _ => HandleState.pending) 1 (by decide) (by decide)).1
  · exact (destructor_drops_queued_runs_popped (fun t => TaskOutcome.value t)
      [0] [1] (fun _ => HandleState.pending) 1 (by decide) (by decide)).2.2.2.2 0
      (by decide) (by decide)

/-- C8: exception isolation.  If the callable of task `t` raises exception
`e`, the worker's `task()` call stores exactly that exception in `t`'s own
handle; reading that handle re-raises `e`; every other task's handle is
untouched; and the call returns normally so the worker thread continues
its loop — the failure never propagates out of the execution step. -/
theorem exception_isolation (body : TaskId → TaskOutcome) (t : TaskId)
    (e : Nat) (handles : TaskId → HandleState)
    (hraise : body t = TaskOutcome.raised e) :
    (workerExecute body t handles).1 t =
        HandleState.stored (TaskOutcome.raised e) ∧
      readHandle ((workerExecute body t handles).1 t) =
        some (ReadOutcome.raised e) ∧
      (∀ u, u ≠ t → (workerExecute body t handles).1 u = handles u) ∧
      (workerExecute body t handles).2 = true := by
  have hupd : (workerExecute body t handles).1 t =
      HandleState.stored (TaskOutcome.raised e) := by
    show Function.update handles t (HandleState.stored (body t)) t = _
    rw [Function.update_same, hraise]
  refine ⟨hupd, by rw [hupd]; rfl, ?_, rfl⟩
  intro u hu
  show Function.update handles t (HandleState.stored (body t)) u = handles u
  exact Function.update_noteq hu _ _

/-- Witness for `exception_isolation`: a callable that always raises 3,
executed as task 0; task 1's pending handle is untouched. -/
theorem exception_isolation_witness :
    (fun _ : TaskId => TaskOutcome.raised 3) 0 = TaskOutcome.raised 3 ∧
      (workerExecute (fun _ => TaskOutcome.raised 3) 0
          (fun _ => HandleState.pending)).1 1 = HandleState.pending ∧
      (workerExecute (fun _ => TaskOutcome.raised 3) 0
          (fun _ => HandleState.pending)).2 = true := by
  refine ⟨rfl, ?_, ?_⟩
  · exact (exception_isolation (fun _ => TaskOutcome.raised 3) 0 3
      (fun _ => HandleState.pending) rfl).2.2.1 1 (by decide)
  · exact (exception_isolation (fun _ => TaskOutcome.raised 3) 0 3
      (fun _ => HandleState.pending) rfl).2.2.2

end ThreadPool
